import Mathlib

/-!
Verification development for the `vk_audio_downloader` repository
(`src/vk_audio_downloader.py`).

The development shallowly embeds the algorithmic core of the repository:

* `decode_aes_128` — the per-segment decryptor (source lines 134–143):
  IV/ciphertext split, AES-128-CBC block chaining and PKCS#7 unpadding,
  parametrized by an abstract block cipher (the AES primitive itself is the
  external `pycryptodome` library).
* `download_content` — the HTTP fetch result logic (source lines 99–101 and
  128–132): body on status 200, `None` otherwise.
* `strReplace` / `handle_segment_uri` — Python `str.replace` and the segment
  URI resolution of `handle_segment` (source line 122).
* `parse_m3u8` — playlist normalization (source lines 82–96).
* a small-step interleaving semantics of `_get_audio_from_m3u8`
  (source lines 104–146): per-segment tasks, the shared semaphore,
  `wait_for` timeouts, `gather`'s exception propagation and the final
  `b''.join` over the (never written) result slots.
-/

namespace VkAudio

/-- Byte strings, modelled as lists of naturals. -/
abbrev Bytes := List Nat

/-! ### Block cipher abstraction

`AES.new(key, AES.MODE_CBC, iv)` delegates the block primitive to the
external `pycryptodome` library; the repository's own code contributes the
IV convention, the CBC chaining usage and the padding handling.  The block
primitive is therefore abstracted as a pair of keyed block maps. -/

/-- An abstract 16-byte block cipher: keyed encryption and decryption maps. -/
structure BlockCipher where
  enc : Bytes → Bytes → Bytes
  dec : Bytes → Bytes → Bytes

/-- A well-formed block cipher: on 16-byte blocks, encryption produces
16-byte blocks and decryption inverts encryption (AES-128 satisfies this). -/
def GoodCipher (C : BlockCipher) : Prop :=
  ∀ k b, b.length = 16 → (C.enc k b).length = 16 ∧ C.dec k (C.enc k b) = b

/-- The identity block cipher, a concrete `GoodCipher` instance used to
evaluate the parametric theorems on concrete inputs. -/
def Cid : BlockCipher := ⟨fun _ b => b, fun _ b => b⟩

/-- Bytewise XOR (truncating to the shorter input, as `zipWith` does). -/
def xorBytes (a b : Bytes) : Bytes := List.zipWith Nat.xor a b

/-- Split a byte string into consecutive 16-byte blocks (fuelled recursion;
the fuel is the length of the list, see `chunks16`). -/
def chunksAux : Nat → Bytes → List Bytes
  | _, [] => []
  | 0, l => [l]
  | fuel + 1, l => l.take 16 :: chunksAux fuel (l.drop 16)

/-- Split a byte string into consecutive 16-byte blocks (the last block is
shorter when the length is not a multiple of 16). -/
def chunks16 (l : Bytes) : List Bytes := chunksAux l.length l

/-- Length of the PKCS#7 padding appended to a payload of length `n`
(always in `1..16`). -/
def padLen (n : Nat) : Nat := 16 - n % 16

/-- PKCS#7 padding for block size 16. -/
def pkcs7Pad (pt : Bytes) : Bytes :=
  pt ++ List.replicate (padLen pt.length) (padLen pt.length)

/-- PKCS#7 unpadding for block size 16, following
`Crypto.Util.Padding.unpad`: `none` models the `ValueError` raised on
zero-length input, on input that is not block aligned, on a padding byte
outside `1..min 16 len`, and on padding bytes that do not all agree. -/
def pkcs7Unpad (d : Bytes) : Option Bytes :=
  if d.length = 0 then none
  else if d.length % 16 ≠ 0 then none
  else if d.getLast?.getD 0 < 1 ∨ min 16 d.length < d.getLast?.getD 0 then none
  else if d.drop (d.length - d.getLast?.getD 0)
          = List.replicate (d.getLast?.getD 0) (d.getLast?.getD 0) then
    some (d.take (d.length - d.getLast?.getD 0))
  else none

/-- CBC decryption of a block list: each plaintext block is the block
decryption of the ciphertext block XORed with the previous ciphertext
block (initially the IV). -/
def cbcDecBlocks (dec : Bytes → Bytes) : Bytes → List Bytes → List Bytes
  | _, [] => []
  | prev, c :: rest => xorBytes (dec c) prev :: cbcDecBlocks dec c rest

/-- CBC encryption of a block list. -/
def cbcEncBlocks (enc : Bytes → Bytes) : Bytes → List Bytes → List Bytes
  | _, [] => []
  | prev, p :: rest =>
    enc (xorBytes p prev) :: cbcEncBlocks enc (enc (xorBytes p prev)) rest

/-- CBC decryption of a byte string under an IV. -/
def cbcDecrypt (dec : Bytes → Bytes) (iv ct : Bytes) : Bytes :=
  (cbcDecBlocks dec iv (chunks16 ct)).flatten

/-- CBC encryption of a byte string under an IV. -/
def cbcEncrypt (enc : Bytes → Bytes) (iv pt : Bytes) : Bytes :=
  (cbcEncBlocks enc iv (chunks16 pt)).flatten

/-- The errors `decode_aes_128` can raise (all uncaught in the source except
the `TypeError` from slicing `None`, which the source catches):
`badKey` models `AES.new` rejecting a `None` or wrongly sized key,
`badIV` models `AES.new` rejecting an IV shorter than 16 bytes,
`notAligned` models `cipher.decrypt` rejecting non-block-aligned data,
`badPadding` models the `ValueError` from `unpad`. -/
inductive DecodeErr
  | badKey
  | badIV
  | notAligned
  | badPadding
deriving DecidableEq

/-- Source lines 134–143 (`decode_aes_128`), parametrized by the block
cipher `C` standing for the AES primitive:

```python
try:
    iv = data[0:16]
except TypeError:
    return bytearray()
ciphered_data = data[16:]
cipher = AES.new(key, AES.MODE_CBC, iv=iv)
decoded = unpad(cipher.decrypt(ciphered_data), AES.block_size)
return decoded
```

`data = None` makes the slice raise `TypeError`, which is caught and turns
into an empty result.  Every later failure (`AES.new` on a bad key or IV,
`cipher.decrypt` on unaligned data, `unpad` on bad padding) raises a
`ValueError`/`TypeError` outside the `try` block and is modelled as an
`Except.error`. -/
def decode_aes_128 (C : BlockCipher) (data : Option Bytes) (key : Option Bytes) :
    Except DecodeErr Bytes :=
  match data with
  | none => .ok []
  | some d =>
    let iv := d.take 16
    let ct := d.drop 16
    match key with
    | none => .error .badKey
    | some k =>
      if k.length ≠ 16 ∧ k.length ≠ 24 ∧ k.length ≠ 32 then .error .badKey
      else if iv.length ≠ 16 then .error .badIV
      else if ct.length % 16 ≠ 0 then .error .notAligned
      else
        match pkcs7Unpad (cbcDecrypt (C.dec k) iv ct) with
        | none => .error .badPadding
        | some pt => .ok pt

/-- The Decryptor as the specification words it (§4.2): the first 16 bytes
of the payload are the IV, the rest is the ciphertext; CBC-decrypt and
PKCS#7-unpad. -/
def specDecryptor (dec : Bytes → Bytes) (payload : Bytes) : Option Bytes :=
  pkcs7Unpad (cbcDecrypt dec (payload.take 16) (payload.drop 16))

/-! ### SegmentFetcher (`_download_content`, lines 99–101, and the body of
`download_chunk`, lines 128–132) -/

/-- One HTTP response: a status code and a body. -/
structure HttpResponse where
  status : Nat
  body : Bytes
deriving DecidableEq

/-- Source lines 99–101: `response.content if response.status_code == 200
else None`.  The function of the single response received for the URI. -/
def download_content (resp : HttpResponse) : Option Bytes :=
  if resp.status = 200 then some resp.body else none

/-- Source lines 130–132: the result logic of `download_chunk` is the same
`content if res.status == 200 else None`. -/
def download_chunk_body (resp : HttpResponse) : Option Bytes :=
  if resp.status = 200 then some resp.body else none

/-! ### Segment URI resolution (`handle_segment`, line 122) -/

/-- `leadsWith pat s` holds when `pat` occurs at the very start of `s`. -/
def leadsWith : List Char → List Char → Bool
  | [], _ => true
  | _ :: _, [] => false
  | p :: ps, c :: cs => if p = c then leadsWith ps cs else false

/-- `hasSub pat s` holds when `pat` occurs somewhere inside `s`
(at any position). -/
def hasSub (pat : List Char) : List Char → Bool
  | [] => leadsWith pat []
  | c :: cs => leadsWith pat (c :: cs) || hasSub pat cs

/-- Fuelled worker for `strReplace`; on a match the scan continues after
the matched portion (replacement text is not rescanned), as Python's
`str.replace` does. -/
def replaceAux (pat rep : List Char) : Nat → List Char → List Char
  | 0, s => s
  | _ + 1, [] => []
  | fuel + 1, c :: cs =>
    if leadsWith pat (c :: cs) then
      rep ++ replaceAux pat rep fuel ((c :: cs).drop pat.length)
    else
      c :: replaceAux pat rep fuel cs

/-- Python `s.replace(pat, rep)`: replace every non-overlapping occurrence
of `pat` in `s`, scanning left to right. -/
def strReplace (s pat rep : List Char) : List Char :=
  replaceAux pat rep s.length s

/-- The literal pattern hard-coded by the source. -/
def idxPat : List Char := String.toList "index.m3u8"

/-- Source line 122: `segment_uri = m3u8_url.replace("index.m3u8",
segment["name"])`. -/
def handle_segment_uri (m3u8Url segName : List Char) : List Char :=
  strReplace m3u8Url idxPat segName

/-- Modelled from the spec (§4.3 preconditions): resolve a relative segment
name against the playlist locator by substituting the locator's final path
component (everything after the last `/`; the whole locator when it has no
`/`) with the segment's relative name. -/
def replaceFinalComponent (url segName : List Char) : List Char :=
  (url.reverse.dropWhile (fun c => ¬ c = '/')).reverse ++ segName

/-! ### Playlist normalization (`_parse_m3u8`, lines 82–96)

A raw segment entry models the duck-typed dictionaries the `m3u8` library
yields.  `Option` layers mirror Python dictionary behaviour:
for `key`, the outer `none` is the `"key"` key being absent
(`segment["key"]` raises `KeyError`) and `some none` is `"key": None`
(`None["method"]` raises `TypeError`); for `method` and the key's `uri`,
the outer `none` is the field being absent (`KeyError` on access) and the
inner layer distinguishes a `None` value from a string. -/

/-- The `"key"` sub-dictionary of a raw segment entry. -/
structure SegKeyInfo where
  method : Option (Option String)
  uri : Option (Option String)
deriving DecidableEq

/-- One raw segment entry (`segment.get("uri")` never raises, hence a plain
`Option`). -/
structure SegEntry where
  uri : Option String
  key : Option (Option SegKeyInfo)
deriving DecidableEq

/-- The normalized per-segment descriptor built by `_parse_m3u8`:
`{"name": ..., "key_uri": ...}`. -/
structure Desc where
  name : Option String
  key_uri : Option String
deriving DecidableEq

/-- The exceptions `_parse_m3u8` can raise while normalizing one entry. -/
inductive ParseErr
  | keyMissing      -- `segment["key"]` raises `KeyError`
  | keyNone         -- `segment["key"]` is `None`; `None["method"]` raises `TypeError`
  | methodMissing   -- `segment["key"]["method"]` raises `KeyError`
  | keyUriMissing   -- `segment["key"]["uri"]` raises `KeyError`
deriving DecidableEq

/-- Normalization of one entry, following the loop body of lines 87–95. -/
def parseEntry (e : SegEntry) : Except ParseErr Desc :=
  match e.key with
  | none => .error .keyMissing
  | some none => .error .keyNone
  | some (some k) =>
    match k.method with
    | none => .error .methodMissing
    | some m =>
      if m = some "AES-128" then
        match k.uri with
        | none => .error .keyUriMissing
        | some u => .ok ⟨e.uri, u⟩
      else .ok ⟨e.uri, none⟩

/-- Source lines 82–96: `_parse_m3u8`, the order-preserving loop that
normalizes each raw entry and raises at the first offending one. -/
def parse_m3u8 : List SegEntry → Except ParseErr (List Desc)
  | [] => .ok []
  | e :: rest =>
    match parseEntry e with
    | .error err => .error err
    | .ok d =>
      match parse_m3u8 rest with
      | .error err => .error err
      | .ok ds => .ok (d :: ds)

/-- The relation claim C10 states between a raw entry and its normalized
descriptor: `name` is the entry's uri; the entry carries a non-null key
mapping with a method field; `key_uri` is the key's uri exactly when the
method is `"AES-128"` and `None` otherwise. -/
def descSpec (e : SegEntry) (d : Desc) : Prop :=
  d.name = e.uri ∧ ∃ k, e.key = some (some k)
    ∧ (∃ m, k.method = some m)
    ∧ (k.method = some (some "AES-128") → ∃ u, k.uri = some u ∧ d.key_uri = u)
    ∧ (k.method ≠ some (some "AES-128") → d.key_uri = none)

/-! ### The concurrent assembler (`_get_audio_from_m3u8`, lines 104–146)

The coroutine system is embedded as a small-step semantics.  A
configuration holds one phase per segment task, the semaphore's free-permit
count and the `downloaded_chunks` slot array.  A schedule is a list of
events; disabled events are skipped.  The phases follow the suspension
points of `handle_segment`/`download_chunk`:

* `notStarted` — the task has not yet entered its first
  `async with semaphore`;
* `fetchingSeg` — a permit is held, `session.get`/`res.read()` for the
  segment URI is in flight;
* `needKey c` — the segment fetch finished with body `c` (or `none` on a
  non-200 status), its permit has been released at the end of
  `download_chunk`, and the task is about to acquire a permit for the key
  fetch (only for descriptors with a `key_uri`);
* `fetchingKey c` — a permit is held for the key fetch;
* `decrypting c k` — the key fetch finished with body `k`, its permit has
  been released, and `decode_aes_128` is about to run;
* `done` — the task returned.  As in the source, the computed content is
  discarded: `handle_segment` never assigns into `downloaded_chunks`;
* `failed e` — the task raised (a `wait_for` timeout, or an uncaught
  exception out of `decode_aes_128`). -/

/-- Per-task failure conditions. -/
inductive TaskErr
  | timeout
  | decodeFail (e : DecodeErr)
deriving DecidableEq

/-- The phase of one segment task. -/
inductive Phase
  | notStarted
  | fetchingSeg
  | needKey (content : Option Bytes)
  | fetchingKey (content : Option Bytes)
  | decrypting (content : Option Bytes) (key : Option Bytes)
  | done
  | failed (e : TaskErr)
deriving DecidableEq

/-- A terminal phase: the coroutine either returned or raised. -/
def isTerminal : Phase → Bool
  | .done => true
  | .failed _ => true
  | _ => false

/-- Whether a phase holds a semaphore permit (exactly the two in-flight
HTTP request phases). -/
def holdsPermit : Phase → Bool
  | .fetchingSeg => true
  | .fetchingKey _ => true
  | _ => false

/-- The network environment of one job: for each segment index, the body
delivered for the segment fetch and for the key fetch (`none` models a
non-200 status, for which `download_chunk` returns `None`). -/
structure FetchEnv where
  segBody : Nat → Option Bytes
  keyBody : Nat → Option Bytes

/-- A scheduler event: which task makes a step, and which step. -/
inductive Ev
  | startSeg (i : Nat)   -- acquire a permit, start the segment fetch
  | segResp (i : Nat)    -- segment response arrives; release the permit
  | startKey (i : Nat)   -- acquire a permit, start the key fetch
  | keyResp (i : Nat)    -- key response arrives; release the permit
  | decode (i : Nat)     -- run `decode_aes_128`
  | timeout (i : Nat)    -- the task's `wait_for` deadline fires

/-- A configuration of the job. -/
structure Config where
  phases : List Phase
  sem : Nat
  slots : List (Option Bytes)
deriving DecidableEq

/-- One step of the system; `none` when the event is not enabled. -/
def step (C : BlockCipher) (env : FetchEnv) (descs : List Desc) (cfg : Config) :
    Ev → Option Config
  | .startSeg i =>
    match cfg.phases.get? i with
    | some .notStarted =>
      if 0 < cfg.sem then
        some { cfg with phases := cfg.phases.set i .fetchingSeg, sem := cfg.sem - 1 }
      else none
    | _ => none
  | .segResp i =>
    match cfg.phases.get? i, descs.get? i with
    | some .fetchingSeg, some d =>
      let content := env.segBody i
      let next := match d.key_uri with
        | some _ => Phase.needKey content
        | none => Phase.done
      some { cfg with phases := cfg.phases.set i next, sem := cfg.sem + 1 }
    | _, _ => none
  | .startKey i =>
    match cfg.phases.get? i with
    | some (.needKey c) =>
      if 0 < cfg.sem then
        some { cfg with phases := cfg.phases.set i (.fetchingKey c), sem := cfg.sem - 1 }
      else none
    | _ => none
  | .keyResp i =>
    match cfg.phases.get? i with
    | some (.fetchingKey c) =>
      some { cfg with phases := cfg.phases.set i (.decrypting c (env.keyBody i)),
                      sem := cfg.sem + 1 }
    | _ => none
  | .decode i =>
    match cfg.phases.get? i with
    | some (.decrypting c k) =>
      let next := match decode_aes_128 C c k with
        | .ok _ => Phase.done
        | .error e => Phase.failed (.decodeFail e)
      some { cfg with phases := cfg.phases.set i next }
    | _ => none
  | .timeout i =>
    match cfg.phases.get? i with
    | some p =>
      if isTerminal p then none
      else
        some { cfg with phases := cfg.phases.set i (.failed .timeout),
                        sem := if holdsPermit p then cfg.sem + 1 else cfg.sem }
    | none => none

/-- Source line 18: `MAX_TASKS = 10`, the semaphore capacity. -/
def MAX_TASKS : Nat := 10

/-- The initial configuration: line 106 (`downloaded_chunks = [None] *
len(parsed_m3u8)`) and line 107 (`Semaphore(MAX_TASKS)`), with the
capacity kept as a parameter `cap`. -/
def initConfig (cap : Nat) (descs : List Desc) : Config :=
  ⟨List.replicate descs.length .notStarted, cap, List.replicate descs.length none⟩

/-- Run a schedule from the initial configuration, skipping disabled
events. -/
def exec (C : BlockCipher) (env : FetchEnv) (descs : List Desc) (cap : Nat)
    (evs : List Ev) : Config :=
  evs.foldl (fun cfg e => (step C env descs cfg e).getD cfg) (initConfig cap descs)

/-- All tasks terminal: the join barrier of `gather` has been passed. -/
def allTerminal (cfg : Config) : Bool := cfg.phases.all isTerminal

/-- Some task raised. -/
def anyFailed (cfg : Config) : Bool :=
  cfg.phases.any (fun p => match p with | .failed _ => true | _ => false)

/-- Job-level failure conditions. -/
inductive JobErr
  | taskRaised      -- `gather` re-raises a task's exception; `run` propagates it
  | joinTypeError   -- `b''.join` over a list containing `None` raises `TypeError`
deriving DecidableEq

/-- `b''.join(downloaded_chunks)` (line 146): concatenates the slots in
index order, raising `TypeError` at the first `None` slot. -/
def bjoin : List (Option Bytes) → Except JobErr Bytes
  | [] => .ok []
  | none :: _ => .error .joinTypeError
  | some b :: rest => (bjoin rest).map (fun t => b ++ t)

/-- The observable outcome of `_get_audio_from_m3u8` once all tasks are
terminal: if any task raised, `gather` (with `return_exceptions` left at
its default) re-raises and `run(download())` propagates the exception;
otherwise line 146 joins the slot array. -/
def jobOutcome (cfg : Config) : Except JobErr Bytes :=
  if anyFailed cfg then .error .taskRaised else bjoin cfg.slots

/-- Modelled from the spec (§4.3, §8): the strictly sequential reference —
fetch and decrypt each segment in index order and concatenate, a failed or
unset slot contributing an empty byte range. -/
def seqReference (C : BlockCipher) (env : FetchEnv) (descs : List Desc) : Bytes :=
  (descs.enum.map (fun p =>
    match p.2.key_uri with
    | none => (env.segBody p.1).getD []
    | some _ =>
      match decode_aes_128 C (env.segBody p.1) (env.keyBody p.1) with
      | .ok b => b
      | .error _ => [])).flatten

/-! ### Concrete fixtures used to evaluate the theorems on explicit inputs -/

/-- A 16-byte key of zeros. -/
def kW : Bytes := List.replicate 16 0

/-- A 16-byte IV of zeros. -/
def ivW : Bytes := List.replicate 16 0

/-- An environment delivering `[7, 8]` for every segment fetch and the
zero key for every key fetch. -/
def envA : FetchEnv := ⟨fun _ => some [7, 8], fun _ => some kW⟩

/-- An environment delivering `[i]` for segment `i` and a non-200 status
for every key fetch. -/
def envB : FetchEnv := ⟨fun i => some [i], fun _ => none⟩

/-- An unencrypted descriptor. -/
def descPlain : Desc := ⟨some "s.ts", none⟩

/-- An encrypted descriptor. -/
def descEnc : Desc := ⟨some "s.ts", some "key"⟩

/-- Environment for the padding-failure job: segment 0 carries 32 zero
bytes (whose CBC decryption under the identity cipher and zero key ends in
a `0` byte — malformed PKCS#7 padding), segment 1 is plain `[5]`. -/
def envPad : FetchEnv :=
  ⟨fun i => if i = 0 then some (List.replicate 32 0) else some [5], fun _ => some kW⟩

/-- Descriptors for the padding-failure job: segment 0 encrypted,
segment 1 not. -/
def descsPad : List Desc := [⟨some "a.ts", some "key"⟩, ⟨some "b.ts", none⟩]

/-- A schedule completing segment 1 and running segment 0 through fetch,
key fetch and decryption. -/
def schedPad : List Ev :=
  [.startSeg 1, .segResp 1, .startSeg 0, .segResp 0, .startKey 0, .keyResp 0, .decode 0]

/-- Environment for the short-payload job: the segment body has fewer than
16 bytes. -/
def envShort : FetchEnv := ⟨fun _ => some [1, 2, 3], fun _ => some kW⟩

/-- A schedule running one encrypted segment to termination. -/
def schedOneEnc : List Ev :=
  [.startSeg 0, .segResp 0, .startKey 0, .keyResp 0, .decode 0]

/-- Five plain descriptors (the spec's timeout-isolation example, §8). -/
def descs5 : List Desc := [descPlain, descPlain, descPlain, descPlain, descPlain]

/-- A schedule in which segments 0, 1, 3, 4 complete and segment 2's fetch
never completes, its `wait_for` deadline firing instead. -/
def sched5 : List Ev :=
  [.startSeg 0, .segResp 0, .startSeg 1, .segResp 1, .startSeg 2, .startSeg 3,
   .segResp 3, .startSeg 4, .segResp 4, .timeout 2]

deriving instance DecidableEq for Except

/-! ## Theorems -/

/-! ### Library lemmas about blocks, XOR, CBC and PKCS#7 -/

theorem length_xorBytes (a b : Bytes) : (xorBytes a b).length = min a.length b.length := by
  simp [xorBytes]

theorem xorBytes_cancel (a b : Bytes) (h : a.length = b.length) :
    xorBytes (xorBytes a b) b = a := by
  induction a generalizing b with
  | nil => simp [xorBytes]
  | cons x xs ih =>
    cases b with
    | nil => simp at h
    | cons y ys =>
      have hh : xs.length = ys.length := by simpa using h
      simp only [xorBytes, List.zipWith_cons_cons, List.cons.injEq]
      exact ⟨Nat.xor_cancel_right y x, by simpa [xorBytes] using ih ys hh⟩

theorem chunksAux_congr (f : Nat) : ∀ (g : Nat) (l : Bytes),
    l.length ≤ f → l.length ≤ g → chunksAux f l = chunksAux g l := by
  induction f with
  | zero =>
    intro g l hf _
    have hl : l = [] := by cases l with | nil => rfl | cons c cs => simp at hf
    subst hl
    cases g <;> simp [chunksAux]
  | succ f ih =>
    intro g l hf hg
    cases l with
    | nil => cases g <;> simp [chunksAux]
    | cons c cs =>
      simp only [List.length_cons] at hf hg
      cases g with
      | zero => omega
      | succ g =>
        simp only [chunksAux]
        congr 1
        exact ih g _ (by simp; omega) (by simp; omega)

theorem chunks16_append16 (b rest : Bytes) (hb : b.length = 16) :
    chunks16 (b ++ rest) = b :: chunks16 rest := by
  cases b with
  | nil => simp at hb
  | cons x xs =>
    have hxs : xs.length = 15 := by simpa using hb
    have hlen : ((x :: xs) ++ rest).length = (15 + rest.length) + 1 := by
      simp [hxs]
    have htk : ((x :: xs) ++ rest).take 16 = x :: xs := by
      rw [← hb]; simp
    have hdr : ((x :: xs) ++ rest).drop 16 = rest := by
      rw [← hb]; simp
    show chunksAux ((x :: xs) ++ rest).length ((x :: xs) ++ rest) = _
    rw [hlen]
    rw [show chunksAux ((15 + rest.length) + 1) ((x :: xs) ++ rest)
          = ((x :: xs) ++ rest).take 16
            :: chunksAux (15 + rest.length) (((x :: xs) ++ rest).drop 16) from rfl]
    rw [htk, hdr]
    exact congrArg _ (chunksAux_congr _ _ _ (by omega) le_rfl)

theorem chunksAux_blocks (f : Nat) : ∀ l : Bytes, l.length ≤ f → l.length % 16 = 0 →
    ∀ b ∈ chunksAux f l, b.length = 16 := by
  induction f with
  | zero =>
    intro l hf _ b hb
    have hl : l = [] := by cases l with | nil => rfl | cons c cs => simp at hf
    subst hl
    simp [chunksAux] at hb
  | succ f ih =>
    intro l hf hm b hb
    cases l with
    | nil => simp [chunksAux] at hb
    | cons c cs =>
      simp only [List.length_cons] at hf hm
      have h16 : 16 ≤ cs.length + 1 := by omega
      simp only [chunksAux] at hb
      rw [List.mem_cons] at hb
      rcases hb with rfl | hb
      · simp [List.length_take]; omega
      · exact ih _ (by simp; omega) (by simp; omega) b hb

theorem chunksAux_flatten (f : Nat) : ∀ l : Bytes, l.length ≤ f →
    (chunksAux f l).flatten = l := by
  induction f with
  | zero =>
    intro l hf
    have hl : l = [] := by cases l with | nil => rfl | cons c cs => simp at hf
    subst hl
    simp [chunksAux]
  | succ f ih =>
    intro l hf
    cases l with
    | nil => simp [chunksAux]
    | cons c cs =>
      simp only [List.length_cons] at hf
      simp only [chunksAux, List.flatten_cons]
      rw [ih _ (by simp; omega)]
      exact List.take_append_drop 16 (c :: cs)

theorem chunks16_flatten (l : Bytes) : (chunks16 l).flatten = l :=
  chunksAux_flatten l.length l le_rfl

theorem chunks16_blocks (l : Bytes) (h : l.length % 16 = 0) :
    ∀ b ∈ chunks16 l, b.length = 16 :=
  chunksAux_blocks l.length l le_rfl h

theorem chunks16_of_blocks : ∀ bs : List Bytes, (∀ b ∈ bs, b.length = 16) →
    chunks16 bs.flatten = bs := by
  intro bs
  induction bs with
  | nil => intro _; simp [chunks16, chunksAux]
  | cons b rest ih =>
    intro h
    rw [List.flatten_cons, chunks16_append16 _ _ (h b (by simp))]
    rw [ih (fun x hx => h x (by simp [hx]))]

theorem flatten_blocks_mod (bs : List Bytes) (h : ∀ b ∈ bs, b.length = 16) :
    bs.flatten.length % 16 = 0 := by
  induction bs with
  | nil => simp
  | cons b rest ih =>
    have hb : b.length = 16 := h b (by simp)
    have hr := ih (fun x hx => h x (by simp [hx]))
    simp [hb] at hr ⊢
    omega

theorem cbcEncBlocks_len (C : BlockCipher) (k : Bytes) (hC : GoodCipher C) :
    ∀ (bs : List Bytes) (prev : Bytes), (∀ b ∈ bs, b.length = 16) → prev.length = 16 →
    ∀ c ∈ cbcEncBlocks (C.enc k) prev bs, c.length = 16 := by
  intro bs
  induction bs with
  | nil =>
    intro prev _ _ c hc
    simp [cbcEncBlocks] at hc
  | cons p rest ih =>
    intro prev hb hp c hc
    have hxl : (xorBytes p prev).length = 16 := by
      simp [length_xorBytes, hb p (by simp), hp]
    have he := (hC k _ hxl).1
    simp only [cbcEncBlocks] at hc
    rw [List.mem_cons] at hc
    rcases hc with rfl | hc
    · exact he
    · exact ih _ (fun x hx => hb x (by simp [hx])) he c hc

theorem cbcDecBlocks_encBlocks (C : BlockCipher) (k : Bytes) (hC : GoodCipher C) :
    ∀ (bs : List Bytes) (prev : Bytes), (∀ b ∈ bs, b.length = 16) → prev.length = 16 →
    cbcDecBlocks (C.dec k) prev (cbcEncBlocks (C.enc k) prev bs) = bs := by
  intro bs
  induction bs with
  | nil => intro prev _ _; simp [cbcEncBlocks, cbcDecBlocks]
  | cons p rest ih =>
    intro prev hb hp
    have hpl : p.length = 16 := hb p (by simp)
    have hxl : (xorBytes p prev).length = 16 := by simp [length_xorBytes, hpl, hp]
    obtain ⟨hel, hed⟩ := hC k _ hxl
    simp only [cbcEncBlocks, cbcDecBlocks]
    rw [hed, xorBytes_cancel _ _ (by rw [hpl, hp])]
    rw [ih _ (fun x hx => hb x (by simp [hx])) hel]

theorem cbcDecrypt_cbcEncrypt (C : BlockCipher) (k iv pt : Bytes) (hC : GoodCipher C)
    (hiv : iv.length = 16) (hm : pt.length % 16 = 0) :
    cbcDecrypt (C.dec k) iv (cbcEncrypt (C.enc k) iv pt) = pt := by
  have hblocks := chunks16_blocks pt hm
  unfold cbcEncrypt cbcDecrypt
  rw [chunks16_of_blocks _ (cbcEncBlocks_len C k hC _ iv hblocks hiv)]
  rw [cbcDecBlocks_encBlocks C k hC _ iv hblocks hiv, chunks16_flatten]

theorem pkcs7Unpad_pad (pt : Bytes) : pkcs7Unpad (pkcs7Pad pt) = some pt := by
  have h1 : 1 ≤ padLen pt.length := by unfold padLen; omega
  have h2 : padLen pt.length ≤ 16 := by unfold padLen; omega
  have hlen : (pkcs7Pad pt).length = pt.length + padLen pt.length := by
    simp [pkcs7Pad]
  have hmod : (pkcs7Pad pt).length % 16 = 0 := by
    rw [hlen]; unfold padLen; omega
  have hrep : (List.replicate (padLen pt.length) (padLen pt.length)).getLast?
      = some (padLen pt.length) := by
    cases hn : padLen pt.length with
    | zero => omega
    | succ m => simp [List.replicate_succ']
  have hlast : (pkcs7Pad pt).getLast?.getD 0 = padLen pt.length := by
    unfold pkcs7Pad
    rw [List.getLast?_append, hrep]
    rfl
  have hsub : (pkcs7Pad pt).length - padLen pt.length = pt.length := by omega
  unfold pkcs7Unpad
  rw [hlast, hsub]
  rw [if_neg (by omega), if_neg (by omega), if_neg (by omega), if_pos]
  · unfold pkcs7Pad
    rw [show (pt ++ List.replicate (padLen pt.length) (padLen pt.length)).take pt.length
          = pt by simp]
  · unfold pkcs7Pad
    simp

/-- If some task's phase is `failed`, the job outcome is the propagated
exception (`gather` re-raises it and `run` propagates). -/
theorem jobOutcome_of_failed {cfg : Config} {i : Nat} {e : TaskErr}
    (h : cfg.phases.get? i = some (.failed e)) : jobOutcome cfg = .error .taskRaised := by
  have ha : anyFailed cfg = true := by
    unfold anyFailed
    rw [List.any_eq_true]
    exact ⟨_, List.get?_mem h, rfl⟩
  unfold jobOutcome
  rw [ha]
  rfl

/-- Claim C6 (confirmed).  Decrypt round-trip: for every plaintext, 128-bit
key and 16-byte IV, AES-128-CBC-encrypting the PKCS#7-padded plaintext
under that key and IV, prefixing the 16 IV bytes, and passing the
resulting payload with the same key through the Decryptor
(`decode_aes_128`) returns the original plaintext exactly.  The AES block
primitive is abstracted as any `GoodCipher` (pycryptodome's AES-128 is
one). -/
theorem claim_C6_roundtrip (C : BlockCipher) (key iv pt : Bytes)
    (hC : GoodCipher C) (hk : key.length = 16) (hiv : iv.length = 16) :
    decode_aes_128 C (some (iv ++ cbcEncrypt (C.enc key) iv (pkcs7Pad pt))) (some key)
      = .ok pt := by
  have hpadmod : (pkcs7Pad pt).length % 16 = 0 := by
    unfold pkcs7Pad padLen
    simp
    omega
  have hblocks := chunks16_blocks _ hpadmod
  have hctblocks := cbcEncBlocks_len C key hC _ iv hblocks hiv
  have hctlen : (cbcEncrypt (C.enc key) iv (pkcs7Pad pt)).length % 16 = 0 :=
    flatten_blocks_mod _ hctblocks
  have htake : (iv ++ cbcEncrypt (C.enc key) iv (pkcs7Pad pt)).take 16 = iv := by
    rw [← hiv]; simp
  have hdrop : (iv ++ cbcEncrypt (C.enc key) iv (pkcs7Pad pt)).drop 16
      = cbcEncrypt (C.enc key) iv (pkcs7Pad pt) := by
    rw [← hiv]; simp
  simp only [decode_aes_128, htake, hdrop]
  rw [if_neg (by simp [hk]), if_neg (by simp [hiv]), if_neg (by omega)]
  rw [cbcDecrypt_cbcEncrypt C key iv (pkcs7Pad pt) hC hiv hpadmod]
  rw [pkcs7Unpad_pad]

/-- Witness for C6 at a concrete input: the identity block cipher, the
zero key and IV, plaintext `[1, 2, 3]`. -/
theorem claim_C6_roundtrip_witness :
    decode_aes_128 Cid (some (ivW ++ cbcEncrypt (Cid.enc kW) ivW (pkcs7Pad [1, 2, 3])))
      (some kW) = .ok [1, 2, 3] :=
  claim_C6_roundtrip Cid kW ivW [1, 2, 3] (fun _ _ h => ⟨h, rfl⟩) (by decide) (by decide)

/-- Claim C5 (amended).  Functional part: for every payload of at least 16
bytes and every 128-bit key, `decode_aes_128` treats bytes 0..15 as the
CBC IV and the rest as ciphertext; when the ciphertext is block aligned it
CBC-decrypts and PKCS#7-unpads, returning the exact plaintext, and
malformed padding raises the `unpad` `ValueError` (`badPadding`).
Propagation part (the correction): that error is **not** a merely
per-segment failure — a task that fails with `badPadding` makes `gather`
re-raise, so the whole job aborts with the propagated exception. -/
theorem claim_C5_decryptor :
    (∀ (C : BlockCipher) (d key : Bytes), key.length = 16 → 16 ≤ d.length →
      decode_aes_128 C (some d) (some key)
        = (if (d.length - 16) % 16 ≠ 0 then .error .notAligned
           else match specDecryptor (C.dec key) d with
                | some pt => .ok pt
                | none => .error .badPadding))
    ∧ (∀ (C : BlockCipher) (env : FetchEnv) (descs : List Desc) (cap : Nat)
        (evs : List Ev) (i : Nat),
        (exec C env descs cap evs).phases.get? i
            = some (.failed (.decodeFail .badPadding)) →
        jobOutcome (exec C env descs cap evs) = .error .taskRaised) := by
  constructor
  · intro C d key hk h16
    simp only [decode_aes_128, specDecryptor]
    rw [if_neg (by simp [hk]), if_neg (by simp [List.length_take]; omega)]
    rw [List.length_drop]
    by_cases hc : (d.length - 16) % 16 ≠ 0
    · rw [if_pos hc, if_pos hc]
    · rw [if_neg hc, if_neg hc]
      cases pkcs7Unpad (cbcDecrypt (C.dec key) (d.take 16) (d.drop 16)) <;> rfl
  · intro C env descs cap evs i h
    exact jobOutcome_of_failed h

/-- Witness for C5 at concrete inputs: a 32-zero-byte payload under the
identity cipher and zero key decodes to a padding failure, and in the
two-segment job `descsPad` that failure aborts the whole job. -/
theorem claim_C5_decryptor_witness :
    decode_aes_128 Cid (some (List.replicate 32 0)) (some kW)
        = (if ((List.replicate 32 0 : Bytes).length - 16) % 16 ≠ 0 then .error .notAligned
           else match specDecryptor (Cid.dec kW) (List.replicate 32 0) with
                | some pt => .ok pt
                | none => .error .badPadding)
      ∧ jobOutcome (exec Cid envPad descsPad 10 schedPad) = .error .taskRaised :=
  ⟨claim_C5_decryptor.1 Cid (List.replicate 32 0) kW (by decide) (by decide),
   claim_C5_decryptor.2 Cid envPad descsPad 10 schedPad 0 (by decide)⟩

/-- Claim C5 counterexample to the claim as stated.  The claim says malformed
padding is "a per-segment failure, not a global one".  In the concrete
two-segment job `descsPad`, segment 0's payload has malformed padding, its
task fails with `badPadding`, every task reaches a terminal state — and
the job's outcome is the globally propagated exception (the whole
`_get_audio_from_m3u8` call raises), not a per-segment gap. -/
theorem claim_C5_counterexample :
    (exec Cid envPad descsPad 10 schedPad).phases.get? 0
        = some (.failed (.decodeFail .badPadding))
      ∧ allTerminal (exec Cid envPad descsPad 10 schedPad) = true
      ∧ jobOutcome (exec Cid envPad descsPad 10 schedPad) = .error .taskRaised := by
  refine ⟨by decide, by decide, by decide⟩

/-- Claim C7 (amended).  An absent (`None`) payload makes `decode_aes_128`
return empty bytes without error (the `TypeError` from slicing `None` is
caught).  But a *present* payload shorter than 16 bytes does **not**
return empty bytes: `AES.new` rejects the short IV (or the key check fires
first), the resulting `ValueError`/`TypeError` is uncaught, the task
fails, and the whole job aborts — shown concretely on a one-segment job
with a 3-byte payload. -/
theorem claim_C7_short_payload :
    (∀ (C : BlockCipher) (key : Option Bytes), decode_aes_128 C none key = .ok [])
    ∧ (∀ (C : BlockCipher) (d : Bytes) (key : Option Bytes), d.length < 16 →
        ∃ e, decode_aes_128 C (some d) key = .error e)
    ∧ ((exec Cid envShort [descEnc] 10 schedOneEnc).phases.get? 0
          = some (.failed (.decodeFail .badIV))
       ∧ jobOutcome (exec Cid envShort [descEnc] 10 schedOneEnc) = .error .taskRaised) := by
  refine ⟨fun C key => rfl, ?_, by decide, by decide⟩
  intro C d key hd
  cases key with
  | none => exact ⟨.badKey, rfl⟩
  | some k =>
    by_cases hk : k.length ≠ 16 ∧ k.length ≠ 24 ∧ k.length ≠ 32
    · exact ⟨.badKey, by simp only [decode_aes_128]; rw [if_pos hk]⟩
    · refine ⟨.badIV, ?_⟩
      simp only [decode_aes_128]
      rw [if_neg hk, if_pos (by simp [List.length_take]; omega)]

/-- Witness for C7 at concrete inputs. -/
theorem claim_C7_short_payload_witness :
    decode_aes_128 Cid none (some kW) = .ok []
      ∧ ∃ e, decode_aes_128 Cid (some [1, 2]) (some kW) = .error e :=
  ⟨claim_C7_short_payload.1 Cid (some kW),
   claim_C7_short_payload.2.1 Cid [1, 2] (some kW) (by decide)⟩

/-- Claim C7 counterexample to the claim as stated: the empty payload is
"shorter than 16 bytes", yet the Decryptor does not return an empty byte
sequence — it raises (modelled as `Except.error badIV`, the `ValueError`
from `AES.new` on a 0-byte IV, raised outside the `try` block). -/
theorem claim_C7_counterexample :
    decode_aes_128 Cid (some []) (some kW) = .error .badIV
      ∧ decode_aes_128 Cid (some []) (some kW) ≠ .ok [] :=
  ⟨by decide, by decide⟩

/-- Claim C8 (amended).  One fetch is the function of a single HTTP response
(structurally: no retry).  It returns the full body exactly when the
status is 200 and the bare failure marker `None` otherwise;
`download_chunk` applies the identical result logic. -/
theorem claim_C8_fetcher :
    (∀ resp : HttpResponse, resp.status = 200 → download_content resp = some resp.body)
    ∧ (∀ resp : HttpResponse, resp.status ≠ 200 → download_content resp = none)
    ∧ (∀ resp : HttpResponse, download_chunk_body resp = download_content resp) := by
  refine ⟨?_, ?_, fun resp => rfl⟩
  · intro resp h
    simp [download_content, h]
  · intro resp h
    simp [download_content, h]

/-- Witness for C8 at concrete responses. -/
theorem claim_C8_fetcher_witness :
    download_content ⟨200, [5]⟩ = some [5] ∧ download_content ⟨404, [5]⟩ = none :=
  ⟨claim_C8_fetcher.1 ⟨200, [5]⟩ rfl, claim_C8_fetcher.2.1 ⟨404, [5]⟩ (by decide)⟩

/-- Claim C8 counterexample to the claim as stated.  The claim says a
non-200 status "surfaces as a FetchFailed condition carrying the URI and
the status/cause".  The code returns the same bare `None` for every
failure: the results for status 404 and status 500 (with different
bodies, and regardless of URI, which is not even part of the result)
coincide, so the failure value carries neither the status nor the URI. -/
theorem claim_C8_counterexample :
    download_content ⟨404, [1]⟩ = none
      ∧ download_content ⟨500, [2]⟩ = none
      ∧ download_content ⟨404, [1]⟩ = download_content ⟨500, [2]⟩ :=
  ⟨by decide, by decide, by decide⟩

/-! ### String lemmas for C9 -/

theorem leadsWith_self : ∀ l : List Char, leadsWith l l = true := by
  intro l
  induction l with
  | nil => rfl
  | cons p ps ih => simp [leadsWith, ih]

theorem leadsWith_append_slash : ∀ (pat q r : List Char), '/' ∉ pat →
    leadsWith pat (q ++ '/' :: r) = true → leadsWith pat q = true := by
  intro pat
  induction pat with
  | nil => intro q r _ _; rfl
  | cons p ps ih =>
    intro q r hsl h
    cases q with
    | nil =>
      exfalso
      simp only [List.nil_append, leadsWith] at h
      by_cases hp : p = '/'
      · exact hsl (by simp [hp])
      · rw [if_neg hp] at h
        simp at h
    | cons c cs =>
      simp only [List.cons_append, leadsWith] at h ⊢
      by_cases hp : p = c
      · rw [if_pos hp] at h ⊢
        exact ih cs r (fun hm => hsl (by simp [hm])) h
      · rw [if_neg hp] at h
        simp at h

theorem replaceAux_self (pat rep : List Char) (hne : pat ≠ []) :
    ∀ fuel, pat.length ≤ fuel → replaceAux pat rep fuel pat = rep := by
  intro fuel hf
  cases hp : pat with
  | nil => exact absurd hp hne
  | cons p ps =>
    subst hp
    cases fuel with
    | zero => simp at hf
    | succ f =>
      simp only [replaceAux]
      rw [if_pos (leadsWith_self _), List.drop_length]
      cases f <;> simp [replaceAux]

theorem replaceAux_tail (pat rep : List Char) (hne : pat ≠ []) (hsl : '/' ∉ pat) :
    ∀ (pre : List Char), hasSub pat pre = false →
    ∀ fuel, (pre ++ '/' :: pat).length ≤ fuel →
    replaceAux pat rep fuel (pre ++ '/' :: pat) = pre ++ '/' :: rep := by
  intro pre
  induction pre with
  | nil =>
    intro _ fuel hf
    simp only [List.nil_append, List.length_cons] at hf ⊢
    cases fuel with
    | zero => omega
    | succ f =>
      simp only [replaceAux]
      have hlw : leadsWith pat ('/' :: pat) = false := by
        cases hp : pat with
        | nil => exact absurd hp hne
        | cons p ps =>
          simp only [leadsWith]
          rw [if_neg (fun he => hsl (by simp [hp, he]))]
      rw [hlw]
      simp only [Bool.false_eq_true, if_false]
      rw [replaceAux_self pat rep hne f (by omega)]
  | cons c cs ih =>
    intro hno fuel hf
    simp only [List.length_append, List.length_cons] at hf
    have hno2 : hasSub pat cs = false := by
      simp only [hasSub, Bool.or_eq_false_iff] at hno
      exact hno.2
    have hnolw : leadsWith pat (c :: cs) = false := by
      simp only [hasSub, Bool.or_eq_false_iff] at hno
      exact hno.1
    cases fuel with
    | zero => omega
    | succ f =>
      simp only [List.cons_append, replaceAux, List.append_eq]
      have : leadsWith pat (c :: (cs ++ '/' :: pat)) = false := by
        by_cases hlw : leadsWith pat (c :: (cs ++ '/' :: pat)) = true
        · exact absurd (leadsWith_append_slash pat (c :: cs) pat hsl (by simpa using hlw))
            (by rw [hnolw]; simp)
        · simpa using hlw
      rw [this]
      simp only [Bool.false_eq_true, if_false]
      rw [ih hno2 f (by simp; omega)]

theorem dropWhile_until {α : Type} (p : α → Bool) : ∀ (a b : List α),
    (∀ x ∈ a, p x = true) → List.dropWhile p (a ++ b) = List.dropWhile p b := by
  intro a b h
  induction a with
  | nil => rfl
  | cons x xs ih =>
    rw [List.cons_append, List.dropWhile_cons_of_pos (h x (by simp))]
    exact ih (fun y hy => h y (by simp [hy]))

/-- Claim C9 (amended).  `handle_segment` resolves a segment URI by replacing
every occurrence of the literal substring `"index.m3u8"` in the playlist
URL with the segment name.  When the playlist URL has the form
`pre ++ "/index.m3u8"` with `"index.m3u8"` not occurring in `pre`, this
coincides with the specification's final-path-component substitution, both
producing `pre ++ "/" ++ name`. -/
theorem claim_C9_resolution (pre segName : List Char) (h : hasSub idxPat pre = false) :
    handle_segment_uri (pre ++ '/' :: idxPat) segName = pre ++ '/' :: segName
      ∧ replaceFinalComponent (pre ++ '/' :: idxPat) segName = pre ++ '/' :: segName := by
  constructor
  · unfold handle_segment_uri strReplace
    exact replaceAux_tail idxPat segName (by decide) (by decide) pre h _ le_rfl
  · unfold replaceFinalComponent
    rw [List.reverse_append, List.reverse_cons]
    rw [List.append_assoc]
    rw [dropWhile_until _ idxPat.reverse _ (by decide)]
    rw [show (['/'] ++ pre.reverse : List Char) = '/' :: pre.reverse from rfl]
    rw [List.dropWhile_cons_of_neg (by decide)]
    simp

/-- Witness for C9 at a concrete playlist URL. -/
theorem claim_C9_resolution_witness :
    handle_segment_uri (String.toList "http://h" ++ '/' :: idxPat) (String.toList "s1.ts")
        = String.toList "http://h" ++ '/' :: String.toList "s1.ts"
      ∧ replaceFinalComponent (String.toList "http://h" ++ '/' :: idxPat)
          (String.toList "s1.ts")
        = String.toList "http://h" ++ '/' :: String.toList "s1.ts" :=
  claim_C9_resolution (String.toList "http://h") (String.toList "s1.ts") (by decide)

/-- Claim C9 counterexample to the claim as stated.  For the playlist URL
`http://h/playlist.m3u8` the code substitutes nothing (the literal
`"index.m3u8"` does not occur), while the claimed final-path-component
substitution yields `http://h/s1.ts`. -/
theorem claim_C9_counterexample :
    handle_segment_uri (String.toList "http://h/playlist.m3u8") (String.toList "s1.ts")
        = String.toList "http://h/playlist.m3u8"
      ∧ replaceFinalComponent (String.toList "http://h/playlist.m3u8")
          (String.toList "s1.ts")
        = String.toList "http://h/s1.ts"
      ∧ handle_segment_uri (String.toList "http://h/playlist.m3u8") (String.toList "s1.ts")
        ≠ replaceFinalComponent (String.toList "http://h/playlist.m3u8")
            (String.toList "s1.ts") :=
  ⟨by decide, by decide, by decide⟩

/-! ### Lemmas for C10 -/

theorem parseEntry_spec (e : SegEntry) (d : Desc) (h : parseEntry e = .ok d) :
    descSpec e d := by
  cases hk : e.key with
  | none => simp [parseEntry, hk] at h
  | some ko =>
    cases ko with
    | none => simp [parseEntry, hk] at h
    | some k =>
      simp only [parseEntry, hk] at h
      cases hm : k.method with
      | none => simp only [hm] at h; exact absurd h (by simp)
      | some m =>
        simp only [hm] at h
        by_cases hmm : m = some "AES-128"
        · rw [if_pos hmm] at h
          cases hu : k.uri with
          | none => simp only [hu] at h; exact absurd h (by simp)
          | some u =>
            simp only [hu] at h
            injection h with h
            subst h
            refine ⟨rfl, k, hk, ⟨m, hm⟩, fun _ => ⟨u, hu, rfl⟩, fun hne => ?_⟩
            exact absurd (by rw [hm, hmm]) hne
        · rw [if_neg hmm] at h
          injection h with h
          subst h
          refine ⟨rfl, k, hk, ⟨m, hm⟩, fun heq => ?_, fun _ => rfl⟩
          rw [hm] at heq
          injection heq with heq
          exact absurd heq hmm

theorem parse_m3u8_forall2 : ∀ (es : List SegEntry) (l : List Desc),
    parse_m3u8 es = .ok l →
    List.Forall₂ (fun e d => parseEntry e = .ok d) es l := by
  intro es
  induction es with
  | nil =>
    intro l h
    simp only [parse_m3u8] at h
    injection h with h
    subst h
    exact List.Forall₂.nil
  | cons e rest ih =>
    intro l h
    simp only [parse_m3u8] at h
    cases hpe : parseEntry e with
    | error err => rw [hpe] at h; exact absurd h (by simp)
    | ok d =>
      rw [hpe] at h
      cases hrest : parse_m3u8 rest with
      | error err => rw [hrest] at h; exact absurd h (by simp)
      | ok ds =>
        rw [hrest] at h
        injection h with h
        subst h
        exact List.Forall₂.cons hpe (ih ds hrest)

/-- Claim C10 (confirmed).  `_parse_m3u8` succeeds only when every entry
carries a non-null `"key"` mapping with a `"method"` field — an entry with
no encryption metadata makes it raise rather than yield an unencrypted
descriptor — and on success it returns a list of the same length in the
same order where each element's `name` is the entry's uri and `key_uri` is
the key's uri exactly when the method is `"AES-128"` and `None`
otherwise. -/
theorem claim_C10_parse :
    (∀ (es : List SegEntry) (l : List Desc), parse_m3u8 es = .ok l →
      l.length = es.length
        ∧ ∀ (i : Nat) (h1 : i < es.length) (h2 : i < l.length),
            descSpec (es.get ⟨i, h1⟩) (l.get ⟨i, h2⟩))
    ∧ (∀ (es : List SegEntry) (e : SegEntry), e ∈ es →
        e.key = none ∨ e.key = some none → ∃ err, parse_m3u8 es = .error err) := by
  constructor
  · intro es l h
    have h2 := parse_m3u8_forall2 es l h
    rw [List.forall₂_iff_get] at h2
    exact ⟨h2.1.symm, fun i h1 hl => parseEntry_spec _ _ (h2.2 i h1 hl)⟩
  · intro es e
    induction es with
    | nil => intro hmem _; simp at hmem
    | cons e0 rest ih =>
      intro hmem hkey
      rw [List.mem_cons] at hmem
      rcases hmem with rfl | hmem
      · rcases hkey with hk | hk
        · exact ⟨.keyMissing, by simp only [parse_m3u8, parseEntry, hk]⟩
        · exact ⟨.keyNone, by simp only [parse_m3u8, parseEntry, hk]⟩
      · cases hpe : parseEntry e0 with
        | error err => exact ⟨err, by simp only [parse_m3u8, hpe]⟩
        | ok d =>
          obtain ⟨err, herr⟩ := ih hmem hkey
          exact ⟨err, by simp only [parse_m3u8, hpe, herr]⟩

/-- Witness for C10: a concrete two-entry playlist (one AES-128 entry, one
entry with a non-AES method) parses successfully with the claimed shape,
and a concrete entry without a `"key"` mapping makes the parse raise. -/
theorem claim_C10_parse_witness :
    (([⟨some "d1", some "ku1"⟩, ⟨some "d2", none⟩] : List Desc).length
        = ([⟨some "d1", some (some ⟨some (some "AES-128"), some (some "ku1")⟩)⟩,
            ⟨some "d2", some (some ⟨some none, none⟩)⟩] : List SegEntry).length
      ∧ ∀ (i : Nat)
          (h1 : i < ([⟨some "d1", some (some ⟨some (some "AES-128"), some (some "ku1")⟩)⟩,
                      ⟨some "d2", some (some ⟨some none, none⟩)⟩] : List SegEntry).length)
          (h2 : i < ([⟨some "d1", some "ku1"⟩, ⟨some "d2", none⟩] : List Desc).length),
            descSpec (([⟨some "d1", some (some ⟨some (some "AES-128"), some (some "ku1")⟩)⟩,
                        ⟨some "d2", some (some ⟨some none, none⟩)⟩] : List SegEntry).get ⟨i, h1⟩)
              (([⟨some "d1", some "ku1"⟩, ⟨some "d2", none⟩] : List Desc).get ⟨i, h2⟩))
    ∧ ∃ err, parse_m3u8 [(⟨some "d3", none⟩ : SegEntry)] = .error err :=
  ⟨claim_C10_parse.1 _ _ (by rfl),
   claim_C10_parse.2 [(⟨some "d3", none⟩ : SegEntry)] ⟨some "d3", none⟩ (by simp)
     (Or.inl rfl)⟩

/-! ### Invariants of the concurrent assembler -/

theorem countP_set_eq {α : Type} (p : α → Bool) :
    ∀ (l : List α) (i : Nat) (a b : α), l.get? i = some a →
    (l.set i b).countP p + (if p a = true then 1 else 0)
      = l.countP p + (if p b = true then 1 else 0) := by
  intro l
  induction l with
  | nil => intro i a b h; simp at h
  | cons x xs ih =>
    intro i a b h
    cases i with
    | zero =>
      rw [List.get?_cons_zero] at h
      injection h with h
      subst h
      rw [List.set_cons_zero, List.countP_cons, List.countP_cons]
      omega
    | succ n =>
      rw [List.get?_cons_succ] at h
      rw [List.set_cons_succ, List.countP_cons, List.countP_cons]
      have := ih n a b h
      omega

/-- Every enabled step rewrites exactly one task's phase (read at its own
index), leaves the slot array untouched, and changes the free-permit count
by exactly the difference of the permit bits of the old and new phase. -/
theorem step_shape {C : BlockCipher} {env : FetchEnv} {descs : List Desc}
    {cfg : Config} {e : Ev} {cfg2 : Config}
    (h : step C env descs cfg e = some cfg2) :
    ∃ i oldP newP, cfg.phases.get? i = some oldP
      ∧ cfg2.phases = cfg.phases.set i newP
      ∧ cfg2.slots = cfg.slots
      ∧ cfg2.sem + (if holdsPermit newP = true then 1 else 0)
          = cfg.sem + (if holdsPermit oldP = true then 1 else 0) := by
  cases e with
  | startSeg i =>
    simp only [step] at h
    split at h
    case h_1 heq =>
      split at h
      · injection h with h
        subst h
        exact ⟨i, _, _, heq, rfl, rfl, by simp [holdsPermit]; try omega⟩
      · exact absurd h (by simp)
    case h_2 => exact absurd h (by simp)
  | segResp i =>
    simp only [step] at h
    split at h
    case h_1 d heq hd =>
      injection h with h
      subst h
      refine ⟨i, _, _, heq, rfl, rfl, ?_⟩
      cases d.key_uri <;> simp [holdsPermit]
    case h_2 => exact absurd h (by simp)
  | startKey i =>
    simp only [step] at h
    split at h
    case h_1 c heq =>
      split at h
      · injection h with h
        subst h
        exact ⟨i, _, _, heq, rfl, rfl, by simp [holdsPermit]; try omega⟩
      · exact absurd h (by simp)
    case h_2 => exact absurd h (by simp)
  | keyResp i =>
    simp only [step] at h
    split at h
    case h_1 c heq =>
      injection h with h
      subst h
      exact ⟨i, _, _, heq, rfl, rfl, by simp [holdsPermit]; try omega⟩
    case h_2 => exact absurd h (by simp)
  | decode i =>
    simp only [step] at h
    split at h
    case h_1 c k heq =>
      injection h with h
      subst h
      refine ⟨i, _, _, heq, rfl, rfl, ?_⟩
      cases decode_aes_128 C c k <;> simp [holdsPermit]
    case h_2 => exact absurd h (by simp)
  | timeout i =>
    simp only [step] at h
    split at h
    case h_1 p heq =>
      split at h
      · exact absurd h (by simp)
      · injection h with h
        subst h
        refine ⟨i, _, _, heq, rfl, rfl, ?_⟩
        cases hp2 : holdsPermit p <;> simp [holdsPermit, hp2]
    case h_2 => exact absurd h (by simp)

theorem step_slots {C : BlockCipher} {env : FetchEnv} {descs : List Desc}
    {cfg : Config} {e : Ev} {cfg2 : Config}
    (h : step C env descs cfg e = some cfg2) : cfg2.slots = cfg.slots := by
  obtain ⟨_, _, _, _, _, hs, _⟩ := step_shape h
  exact hs

theorem step_permits {C : BlockCipher} {env : FetchEnv} {descs : List Desc}
    {cfg : Config} {e : Ev} {cfg2 : Config} {cap : Nat}
    (h : step C env descs cfg e = some cfg2)
    (hP : cfg.phases.countP holdsPermit + cfg.sem = cap) :
    cfg2.phases.countP holdsPermit + cfg2.sem = cap := by
  obtain ⟨i, oldP, newP, hget, hph, _, hsem⟩ := step_shape h
  have hc := countP_set_eq holdsPermit cfg.phases i oldP newP hget
  rw [hph]
  omega

theorem foldl_step_inv (C : BlockCipher) (env : FetchEnv) (descs : List Desc)
    (P : Config → Prop)
    (hstep : ∀ cfg e cfg2, step C env descs cfg e = some cfg2 → P cfg → P cfg2) :
    ∀ (evs : List Ev) (cfg : Config), P cfg →
      P (evs.foldl (fun c e => (step C env descs c e).getD c) cfg) := by
  intro evs
  induction evs with
  | nil => intro cfg h; exact h
  | cons e rest ih =>
    intro cfg h
    rw [List.foldl_cons]
    cases hs : step C env descs cfg e with
    | none => exact ih cfg h
    | some cfg2 => exact ih cfg2 (hstep cfg e cfg2 hs h)

/-- The slot array is never written: in every reachable configuration it
still holds the initial `[None] * N` (the write-to-slot step of the
specification is absent from `handle_segment`). -/
theorem exec_slots (C : BlockCipher) (env : FetchEnv) (descs : List Desc)
    (cap : Nat) (evs : List Ev) :
    (exec C env descs cap evs).slots = List.replicate descs.length none := by
  exact foldl_step_inv C env descs (fun cfg => cfg.slots = List.replicate descs.length none)
    (fun cfg e cfg2 hs hP => (step_slots hs).trans hP) evs (initConfig cap descs) rfl

/-- The admission-gate invariant: the number of tasks holding a permit
(the in-flight segment and key fetches together) plus the free-permit
count is always the capacity. -/
theorem exec_permits (C : BlockCipher) (env : FetchEnv) (descs : List Desc)
    (cap : Nat) (evs : List Ev) :
    (exec C env descs cap evs).phases.countP holdsPermit
      + (exec C env descs cap evs).sem = cap := by
  refine foldl_step_inv C env descs
    (fun cfg => cfg.phases.countP holdsPermit + cfg.sem = cap)
    (fun cfg e cfg2 hs hP => step_permits hs hP) evs (initConfig cap descs) ?_
  have h0 : (List.replicate descs.length Phase.notStarted).countP holdsPermit = 0 := by
    rw [List.countP_eq_zero]
    intro a ha
    rw [List.eq_of_mem_replicate ha]
    simp [holdsPermit]
  simp [initConfig, h0]

theorem bjoin_none : ∀ {slots : List (Option Bytes)}, none ∈ slots →
    bjoin slots = .error .joinTypeError := by
  intro slots h
  induction slots with
  | nil => simp at h
  | cons s rest ih =>
    cases s with
    | none => rfl
    | some b =>
      rw [List.mem_cons] at h
      rcases h with h | h
      · exact absurd h (by simp)
      · simp only [bjoin, ih h]
        rfl

theorem jobOutcome_error_of_none_mem {cfg : Config} (h : none ∈ cfg.slots) :
    ∃ e, jobOutcome cfg = .error e := by
  unfold jobOutcome
  by_cases hf : anyFailed cfg = true
  · rw [if_pos hf]
    exact ⟨.taskRaised, rfl⟩
  · rw [if_neg hf]
    exact ⟨.joinTypeError, bjoin_none h⟩

theorem step_nil {C : BlockCipher} {env : FetchEnv} {descs : List Desc}
    {cfg : Config} (h : cfg.phases = []) (e : Ev) :
    step C env descs cfg e = none := by
  cases e <;> simp [step, h]

theorem exec_nil_descs (C : BlockCipher) (env : FetchEnv) (cap : Nat) (evs : List Ev) :
    exec C env [] cap evs = initConfig cap [] := by
  refine foldl_step_inv C env [] (fun cfg => cfg = initConfig cap []) ?_ evs _ rfl
  intro cfg e cfg2 hs hP
  subst hP
  rw [step_nil rfl e] at hs
  exact absurd hs (by simp)

/-- Claim C1 (code_bug).  The claim — each task's plaintext is written into
the result slot at its segment's index before the final join, so the
output equals the strictly sequential reference — fails on the code:
`handle_segment` computes the content and discards it, so for the concrete
one-segment job (whose sequential reference is the nonempty `[0]`) every
schedule leaves the slot array at `[None]` and the job can never return
the reference bytes: its outcome is an exception for every completion
order. -/
theorem claim_C1_order_refinement :
    seqReference Cid envB [descPlain] = [0]
      ∧ (∀ evs : List Ev, (exec Cid envB [descPlain] 10 evs).slots = [none])
      ∧ (∀ evs : List Ev, ∃ e,
          jobOutcome (exec Cid envB [descPlain] 10 evs) = .error e) := by
  refine ⟨by decide, fun evs => ?_, fun evs => ?_⟩
  · rw [exec_slots]
    rfl
  · apply jobOutcome_error_of_none_mem
    rw [exec_slots]
    simp

/-- Claim C2 (code_bug).  The empty-playlist half of the claim holds: with no
descriptors the job returns the empty byte sequence for every schedule.
The other half fails: in a one-segment job whose single task completes
successfully (all tasks terminal, none failed), the unset slot does not
contribute an empty byte range — `b''.join` over the `None` slot raises
`TypeError` instead of returning a concatenation. -/
theorem claim_C2_join_behavior :
    (∀ (C : BlockCipher) (env : FetchEnv) (cap : Nat) (evs : List Ev),
        jobOutcome (exec C env [] cap evs) = .ok [])
      ∧ (allTerminal (exec Cid envB [descPlain] 10 [.startSeg 0, .segResp 0]) = true
         ∧ anyFailed (exec Cid envB [descPlain] 10 [.startSeg 0, .segResp 0]) = false
         ∧ jobOutcome (exec Cid envB [descPlain] 10 [.startSeg 0, .segResp 0])
             = .error .joinTypeError) := by
  refine ⟨fun C env cap evs => ?_, by decide, by decide, by decide⟩
  rw [exec_nil_descs]
  rfl

/-- Claim C3 (amended).  The admission-gate bound holds: in every reachable
configuration, the number of tasks holding a permit — which counts the
in-flight segment **and** key fetches, both drawing from the same
semaphore — plus the free-permit count equals the capacity (10 in the
source), so at most `cap` fetches are ever simultaneously in flight.  The
permit-lifetime part of the claim is corrected by
`claim_C3_counterexample`: each permit covers one HTTP request, not the
task's whole unit of work. -/
theorem claim_C3_admission_gate :
    MAX_TASKS = 10
      ∧ ∀ (C : BlockCipher) (env : FetchEnv) (descs : List Desc) (cap : Nat)
          (evs : List Ev),
          (exec C env descs cap evs).phases.countP holdsPermit
              + (exec C env descs cap evs).sem = cap
          ∧ (exec C env descs cap evs).phases.countP holdsPermit ≤ cap := by
  refine ⟨rfl, fun C env descs cap evs => ?_⟩
  have h := exec_permits C env descs cap evs
  exact ⟨h, by omega⟩

/-- Claim C3 counterexample to the claim as stated.  The claim says a task's
permit is held for its whole per-segment unit of work — segment fetch, key
fetch and decryption — and released only when all of that work is
finished.  Concretely: after `[startSeg 0, segResp 0]` the single
encrypted task has finished only its segment fetch; its phase
(`needKey …`) is neither terminal nor permit-holding, yet the semaphore is
back at its full capacity 10 — the permit was released at the end of
`download_chunk`, before the key fetch and the decryption. -/
theorem claim_C3_counterexample :
    (exec Cid envA [descEnc] 10 [.startSeg 0, .segResp 0]).phases
        = [.needKey (some [7, 8])]
      ∧ (exec Cid envA [descEnc] 10 [.startSeg 0, .segResp 0]).sem = 10
      ∧ isTerminal (.needKey (some [7, 8])) = false
      ∧ holdsPermit (.needKey (some [7, 8])) = false := by
  refine ⟨by decide, by decide, by decide, by decide⟩

/-- Claim C4 (code_bug).  The claim — a failure in one segment's task is
local: it does not abort the join, and every other index's slot still
receives its correct bytes — fails on the code, on the spec's own §8
example: five segments, segment 2's fetch never completes.  After the
timeout all tasks are terminal, segments 0, 1, 3, 4 completed
successfully — yet the `TimeoutError` propagates through `gather` and
aborts the whole job, and no sibling slot holds its bytes (all five slots
are still `None`, although the sequential reference yields
`[0, 1, 2, 3, 4]`). -/
theorem claim_C4_failure_not_isolated :
    allTerminal (exec Cid envB descs5 10 sched5) = true
      ∧ (exec Cid envB descs5 10 sched5).phases
          = [.done, .done, .failed .timeout, .done, .done]
      ∧ jobOutcome (exec Cid envB descs5 10 sched5) = .error .taskRaised
      ∧ (exec Cid envB descs5 10 sched5).slots = List.replicate 5 none
      ∧ seqReference Cid envB descs5 = [0, 1, 2, 3, 4] := by
  refine ⟨by decide, by decide, by decide, by decide, by decide⟩

end VkAudio
